import Mathlib

/-!
Verification of the pytket-stim backend (`stim_backend.py`).

The development shallowly embeds the source file:

* `int_double` and `tk1_to_cliff` embed `_int_double` and `_tk1_to_cliff`
  (angles as exact rationals in half-turn units, `np.round` as
  round-half-to-even, `np.isclose` with its default absolute tolerance
  `1e-8` and relative tolerance `1e-5`);
* `translateC`, `assemble` and `processOne` embed `_process_one_circuit`
  (the stim sampler is an external executor and enters as a parameter);
* `processCircuits` and `circuitStatus` embed
  `StimBackend.process_circuits` and `StimBackend.circuit_status`
  (uuid minting is modelled by a fresh counter in the cache state).

Exact unitary semantics for the single-qubit fragment lives in the ring
`Zeta8` (rationals with an eighth root of unity adjoined), in which the
matrices of H, S, the quarter-turn rotations and the global-phase factors
all have exact representations.
-/

/-- Decidable equality for `Except`. -/
def exceptDecEq {ε α : Type} [DecidableEq ε] [DecidableEq α] :
    (a b : Except ε α) → Decidable (a = b)
  | .error e, .error f =>
      if h : e = f then .isTrue (by rw [h])
      else .isFalse (fun hc => h (by injection hc))
  | .error _, .ok _ => .isFalse (fun hc => by injection hc)
  | .ok _, .error _ => .isFalse (fun hc => by injection hc)
  | .ok a, .ok b =>
      if h : a = b then .isTrue (by rw [h])
      else .isFalse (fun hc => h (by injection hc))

instance {ε α : Type} [DecidableEq ε] [DecidableEq α] :
    DecidableEq (Except ε α) := exceptDecEq

/-! ## The ring ℚ(ζ₈)

An element `⟨a, b, c, d⟩` stands for `a + b·ζ + c·ζ² + d·ζ³` where
`ζ = exp(iπ/4)`, so `ζ⁴ = -1`, `ζ² = i` and `1/√2 = (ζ - ζ³)/2`. -/

@[ext]
structure Zeta8 where
  c0 : ℚ
  c1 : ℚ
  c2 : ℚ
  c3 : ℚ
deriving DecidableEq

namespace Zeta8

def zadd (x y : Zeta8) : Zeta8 :=
  ⟨x.c0 + y.c0, x.c1 + y.c1, x.c2 + y.c2, x.c3 + y.c3⟩

def zneg (x : Zeta8) : Zeta8 := ⟨-x.c0, -x.c1, -x.c2, -x.c3⟩

/-- Multiplication in ℚ[X]/(X⁴+1). -/
def zmul (x y : Zeta8) : Zeta8 :=
  ⟨x.c0 * y.c0 - x.c1 * y.c3 - x.c2 * y.c2 - x.c3 * y.c1,
   x.c0 * y.c1 + x.c1 * y.c0 - x.c2 * y.c3 - x.c3 * y.c2,
   x.c0 * y.c2 + x.c1 * y.c1 + x.c2 * y.c0 - x.c3 * y.c3,
   x.c0 * y.c3 + x.c1 * y.c2 + x.c2 * y.c1 + x.c3 * y.c0⟩

instance : Zero Zeta8 := ⟨⟨0, 0, 0, 0⟩⟩
instance : One Zeta8 := ⟨⟨1, 0, 0, 0⟩⟩
instance : Add Zeta8 := ⟨zadd⟩
instance : Neg Zeta8 := ⟨zneg⟩
instance : Mul Zeta8 := ⟨zmul⟩

instance commRing : CommRing Zeta8 where
  add_assoc a b c := by
    show zadd (zadd a b) c = zadd a (zadd b c)
    ext <;> simp only [zadd] <;> ring_nf
  zero_add a := by
    show zadd ⟨0, 0, 0, 0⟩ a = a
    ext <;> simp only [zadd] <;> ring_nf
  add_zero a := by
    show zadd a ⟨0, 0, 0, 0⟩ = a
    ext <;> simp only [zadd] <;> ring_nf
  add_comm a b := by
    show zadd a b = zadd b a
    ext <;> simp only [zadd] <;> ring_nf
  mul_assoc a b c := by
    show zmul (zmul a b) c = zmul a (zmul b c)
    ext <;> simp only [zmul] <;> ring_nf
  one_mul a := by
    show zmul ⟨1, 0, 0, 0⟩ a = a
    ext <;> simp only [zmul] <;> ring_nf
  mul_one a := by
    show zmul a ⟨1, 0, 0, 0⟩ = a
    ext <;> simp only [zmul] <;> ring_nf
  left_distrib a b c := by
    show zmul a (zadd b c) = zadd (zmul a b) (zmul a c)
    ext <;> simp only [zmul, zadd] <;> ring_nf
  right_distrib a b c := by
    show zmul (zadd a b) c = zadd (zmul a c) (zmul b c)
    ext <;> simp only [zmul, zadd] <;> ring_nf
  zero_mul a := by
    show zmul ⟨0, 0, 0, 0⟩ a = ⟨0, 0, 0, 0⟩
    ext <;> simp only [zmul] <;> ring_nf
  mul_zero a := by
    show zmul a ⟨0, 0, 0, 0⟩ = ⟨0, 0, 0, 0⟩
    ext <;> simp only [zmul] <;> ring_nf
  mul_comm a b := by
    show zmul a b = zmul b a
    ext <;> simp only [zmul] <;> ring_nf
  neg_add_cancel a := by
    show zadd (zneg a) a = ⟨0, 0, 0, 0⟩
    ext <;> simp only [zadd, zneg] <;> ring_nf
  nsmul := nsmulRec
  zsmul := zsmulRec

/-- The primitive eighth root of unity `exp(iπ/4)`. -/
def zeta : Zeta8 := ⟨0, 1, 0, 0⟩

/-- `1/√2 = (ζ - ζ³)/2`, used in the Hadamard matrix. -/
def invSqrt2 : Zeta8 := ⟨0, 1/2, 0, -(1/2)⟩

/-- `exp(iπk/4)` for an integer `k`, via the residue of `k` modulo 8. -/
def zp (k : ℤ) : Zeta8 := zeta ^ ((k % 8).toNat)

end Zeta8

/-! ## 2×2 matrices over ℚ(ζ₈) -/

@[ext]
structure M2 where
  e00 : Zeta8
  e01 : Zeta8
  e10 : Zeta8
  e11 : Zeta8
deriving DecidableEq

namespace M2

def mmul (x y : M2) : M2 :=
  ⟨x.e00 * y.e00 + x.e01 * y.e10, x.e00 * y.e01 + x.e01 * y.e11,
   x.e10 * y.e00 + x.e11 * y.e10, x.e10 * y.e01 + x.e11 * y.e11⟩

instance : One M2 := ⟨⟨1, 0, 0, 1⟩⟩
instance : Mul M2 := ⟨mmul⟩

instance monoid : Monoid M2 where
  mul_assoc a b c := by
    show mmul (mmul a b) c = mmul a (mmul b c)
    ext <;> simp only [mmul] <;> ring_nf
  one_mul a := by
    show mmul ⟨1, 0, 0, 1⟩ a = a
    ext <;> simp only [mmul] <;> ring_nf
  mul_one a := by
    show mmul a ⟨1, 0, 0, 1⟩ = a
    ext <;> simp only [mmul] <;> ring_nf

/-- Scalar (global-phase) multiplication of a matrix. -/
def sm (z : Zeta8) (A : M2) : M2 := ⟨z * A.e00, z * A.e01, z * A.e10, z * A.e11⟩

end M2

/-! ## The angle decomposer (`_int_double`, `_tk1_to_cliff`) -/

/-- The two generator gates emitted by `_tk1_to_cliff`. -/
inductive Gate
  | S
  | H
deriving DecidableEq

/-- A one-qubit pytket circuit as built by `_tk1_to_cliff`: the emitted
gate sequence plus the accumulated global phase (half-turn units). -/
structure Circuit1 where
  gates : List Gate
  phase : ℚ
deriving DecidableEq

/-- `np.isclose` default absolute tolerance `1e-8`. -/
def atol : ℚ := 1 / 100000000

/-- `np.isclose` default relative tolerance `1e-5`. -/
def rtol : ℚ := 1 / 100000

/-- `np.isclose(a, b)` with default tolerances: `|a - b| ≤ atol + rtol·|b|`. -/
def isclose (a b : ℚ) : Bool := decide (|a - b| ≤ atol + rtol * |b|)

/-- `np.round` rounds half-way cases to the nearest even integer. -/
def roundHalfEven (q : ℚ) : ℤ :=
  if q - (⌊q⌋ : ℚ) < 1 / 2 then ⌊q⌋
  else if 1 / 2 < q - (⌊q⌋ : ℚ) then ⌊q⌋ + 1
  else if ⌊q⌋ % 2 = 0 then ⌊q⌋ else ⌊q⌋ + 1

/-- `_int_double` (source lines 78–84): `(2x) mod 8` if `x` is close to a
half-integer, otherwise a `ValueError`. -/
def int_double (x : ℚ) : Except String ℤ :=
  if isclose (2 * x) ((roundHalfEven (2 * x) : ℤ) : ℚ) then .ok (roundHalfEven (2 * x) % 8)
  else .error "Non-Clifford angle encountered"

/-- `for _ in range(n): circ.S(0)` — append one S gate per iteration. -/
def sLoop : Circuit1 → ℕ → Circuit1
  | c, 0 => c
  | c, n + 1 => sLoop { c with gates := c.gates ++ [Gate.S] } n

/-- `for _ in range(n): circ.H(0).S(0).H(0)` — append H, S, H per iteration. -/
def hshLoop : Circuit1 → ℕ → Circuit1
  | c, 0 => c
  | c, n + 1 => hshLoop { c with gates := c.gates ++ [Gate.H, Gate.S, Gate.H] } n

/-- `_tk1_to_cliff` (source lines 87–98). -/
def tk1_to_cliff (a b c : ℚ) : Except String Circuit1 := do
  let na ← int_double a
  let nb ← int_double b
  let nc ← int_double c
  let circ0 : Circuit1 := ⟨[], 0⟩
  let circ1 := sLoop circ0 nc.toNat
  let circ2 := hshLoop circ1 nb.toNat
  let circ3 := sLoop circ2 na.toNat
  pure { circ3 with
          phase := circ3.phase + (-(1 / 4) * ((na : ℚ) + (nb : ℚ) + (nc : ℚ))) }

/-! ## Exact unitary semantics over ℚ(ζ₈) -/

/-- Modelled from the spec: the matrices of the two generator gates in the
half-turn convention — `S = diag(1, i)` and the Hadamard matrix
`(1/√2)·[[1,1],[1,-1]]`; both are exact over ℚ(ζ₈). -/
def gateU : Gate → M2
  | .S => ⟨1, 0, 0, Zeta8.zeta ^ 2⟩
  | .H => ⟨Zeta8.invSqrt2, Zeta8.invSqrt2, Zeta8.invSqrt2, -Zeta8.invSqrt2⟩

/-- Net unitary of an emitted gate list: each appended gate multiplies on
the left (gates act in emission order). -/
def listU (gs : List Gate) : M2 := gs.foldl (fun u g => gateU g * u) 1

/-- Modelled from the spec: the pytket global-phase convention —
`add_phase(p)` scales the unitary by `exp(iπ·p)`; the decomposer only emits
quarter-integer phases, for which the factor is `ζ^(4p)`. -/
def phaseFac (p : ℚ) : Zeta8 := Zeta8.zp ⌊4 * p⌋

/-- Net unitary action of the circuit fragment emitted by the decomposer:
the gate product scaled by the global-phase factor. -/
def circUnitary (c : Circuit1) : M2 := M2.sm (phaseFac c.phase) (listU c.gates)

/-- `Rz` through `m` quarter-turns: `diag(exp(-iπm/4), exp(iπm/4))`. -/
def rzZ (m : ℤ) : M2 := ⟨Zeta8.zp (-m), 0, 0, Zeta8.zp m⟩

/-- `Rx` through `m` quarter-turns, via `Rx = H · Rz · H`. -/
def rxZ (m : ℤ) : M2 := gateU .H * rzZ m * gateU .H

/-- Modelled from the spec: the reference rotation `tk1(a, b, c)` =
`Rz(a)·Rx(b)·Rz(c)` (angles in half-turn units); at half-integer angles
`a = ma/2` the matrix is exact over ℚ(ζ₈) with `ma` quarter-turns per axis. -/
def tk1U (ma mb mc : ℤ) : M2 := rzZ ma * rxZ mb * rzZ mc

/-! ## The circuit translator (`_process_one_circuit`) -/

/-- pytket operation types: the fifteen keys of the `_gate` dict plus a few
representative unsupported types (arbitrary rotations, T, Toffoli, TK1). -/
inductive OpT
  | noop | X | Y | Z | H | S | SX | SXdg | CX | CY | CZ | ISWAPMax | SWAP
  | Measure | Reset
  | Rz | Rx | T | CCX | TK1
deriving DecidableEq

/-- The `_gate` dict (source lines 52–68) as an association list, in source
order. -/
def gateAssoc : List (OpT × String) :=
  [(.noop, "I"), (.X, "X"), (.Y, "Y"), (.Z, "Z"), (.H, "H"), (.S, "S"),
   (.SX, "SQRT_X"), (.SXdg, "SQRT_X_DAG"), (.CX, "CX"), (.CY, "CY"),
   (.CZ, "CZ"), (.ISWAPMax, "ISWAP"), (.SWAP, "SWAP"), (.Measure, "M"),
   (.Reset, "R")]

/-- `_gate[optype]` as a partial lookup. -/
def gateMap (o : OpT) : Option String :=
  (gateAssoc.find? (fun p => p.1 = o)).map (fun p => p.2)

/-- `set(_gate.keys())` — the gate set handed to `GateSetPredicate`. -/
def stimGateSet : List OpT := gateAssoc.map (fun p => p.1)

/-- A command argument: a qubit or a classical bit (opaque ids). -/
inductive Arg
  | q (i : ℕ)
  | b (i : ℕ)
deriving DecidableEq

/-- One circuit command: an operation type and its ordered arguments. -/
structure Cmd where
  op : OpT
  args : List Arg
deriving DecidableEq

/-- A pytket circuit as seen by `_process_one_circuit`: declared qubits,
declared classical bits and the command list, each in declaration order. -/
structure PCircuit where
  qubits : List ℕ
  bits : List ℕ
  cmds : List Cmd
deriving DecidableEq

/-- First-occurrence position of `x` in `xs` (total helper). -/
def listIdx : List ℕ → ℕ → ℕ
  | [], _ => 0
  | y :: ys, x => if y = x then 0 else listIdx ys x + 1

/-- Python's `list.index`: first-occurrence position, or a `ValueError`
when the element is absent. -/
def pyIndex (xs : List ℕ) (x : ℕ) : Except String ℕ :=
  if x ∈ xs then .ok (listIdx xs x) else .error "is not in list"

/-- `qubits.index(arg)` for a generic argument: a classical bit never
compares equal to a qubit, so it is never found. -/
def pyIndexArg (qubits : List ℕ) (a : Arg) : Except String ℕ :=
  match a with
  | .q i => pyIndex qubits i
  | .b _ => .error "is not in list"

/-- A stim instruction: primitive name and qubit-index targets. -/
abbrev StimOp := String × List ℕ

/-- List map where each element may fail (a Python list comprehension in
which an element raises). -/
def mapE {α β : Type} (f : α → Except String β) : List α → Except String (List β)
  | [] => .ok []
  | x :: xs => do
      let y ← f x
      let ys ← mapE f xs
      pure (y :: ys)

/-- Left fold where each step may fail (a Python `for` loop that may
raise). -/
def foldE {σ α : Type} (f : σ → α → Except String σ) : σ → List α → Except String σ
  | s, [] => .ok s
  | s, x :: xs =>
    match f s x with
    | .error e => .error e
    | .ok s2 => foldE f s2 xs

/-- The dispatch-and-emit half of one translation-loop iteration (source
lines 107–116): on a measurement, resolve the qubit index, emit `M` and
append the target bit to the ledger; otherwise resolve all qubit indices
and emit the `_gate`-mapped instruction (a missing key is a `KeyError`). -/
def emitStep (qubits : List ℕ) (st : List StimOp × List ℕ) (c : Cmd) :
    Except String (List StimOp × List ℕ) :=
  if c.op = OpT.Measure then
    match c.args with
    | [Arg.q qb, Arg.b cb] =>
        match pyIndex qubits qb with
        | .error e => .error e
        | .ok i => .ok (st.1 ++ [("M", [i])], st.2 ++ [cb])
    | _ => .error "bad measurement arguments"
  else
    match mapE (pyIndexArg qubits) c.args with
    | .error e => .error e
    | .ok qbs =>
        match gateMap c.op with
        | some nm => .ok (st.1 ++ [(nm, qbs)], st.2)
        | none => .error "KeyError"

/-- One full iteration of the translation loop (source lines 106–118):
dispatch and emit, then re-check the ledger for duplicate bits (source
lines 117–118, run after every appended command). -/
def transStep (qubits : List ℕ) (st : List StimOp × List ℕ) (c : Cmd) :
    Except String (List StimOp × List ℕ) :=
  match emitStep qubits st c with
  | .error e => .error e
  | .ok st2 => if st2.2.Nodup then .ok st2 else .error "Measurement overwritten"

/-- The translation pass over the command stream: produces the stim
instruction stream and the measurement-order ledger. -/
def translateC (c : PCircuit) : Except String (List StimOp × List ℕ) :=
  foldE (transStep c.qubits) ([], []) c.cmds

/-- Python's `range(n)` for an integer `n` (empty when `n ≤ 0`). -/
def pyRange (n : ℤ) : List ℕ := List.range n.toNat

/-- Result assembly (source lines 123–127): for every trial row and every
declared bit, look the bit up in the ledger and copy the raw outcome. -/
def assemble (batch : ℕ → ℕ → Bool) (nshots : ℤ) (readout bits : List ℕ) :
    Except String (List (List Bool)) :=
  mapE (fun k => mapE (fun cb => (pyIndex readout cb).map (fun j => batch k j)) bits)
    (pyRange nshots)

/-- `_process_one_circuit` (source lines 101–127), with the external stim
executor supplied as the parameter `sample` (instruction stream and shot
count to a raw outcome matrix in ledger-column order). -/
def processOne (sample : List StimOp → ℤ → (ℕ → ℕ → Bool)) (circ : PCircuit)
    (nshots : ℤ) : Except String (List (List Bool)) := do
  let tr ← translateC circ
  assemble (sample tr.1 nshots) nshots tr.2 circ.bits

/-- The classical bits targeted by (well-formed) measurement commands, in
command order — the measurement-order ledger of a full pass. -/
def measuredBits (cmds : List Cmd) : List ℕ :=
  cmds.filterMap (fun c =>
    if c.op = OpT.Measure then
      match c.args with
      | [Arg.q _, Arg.b cb] => some cb
      | _ => none
    else none)

/-- Well-formedness of one command: a measurement carries exactly one
declared qubit and one bit; any other operation is in the stim gate set and
carries only declared qubits. -/
def cmdWF (qubits : List ℕ) (c : Cmd) : Bool :=
  if c.op = OpT.Measure then
    match c.args with
    | [Arg.q qb, Arg.b _] => decide (qb ∈ qubits)
    | _ => false
  else
    decide (c.op ∈ stimGateSet) &&
      c.args.all (fun a =>
        match a with
        | Arg.q i => decide (i ∈ qubits)
        | Arg.b _ => false)

/-- Well-formedness of a circuit's command stream. -/
def circWF (c : PCircuit) : Bool := c.cmds.all (cmdWF c.qubits)

/-- Modelled from the spec: `GateSetPredicate(set(_gate.keys()))` from
`required_predicates` (source lines 139–144) — the pytket predicate class
itself is external; it holds when every operation type is in the set. -/
def gateSetPred (c : PCircuit) : Bool :=
  c.cmds.all (fun cmd => decide (cmd.op ∈ stimGateSet))

/-! ## The submission/status session (`StimBackend`) -/

/-- pytket `StatusEnum` (the states relevant to this backend). -/
inductive StatusEnum
  | completed | submitted | running | queued | cancelled
deriving DecidableEq

/-- The backend's handle-keyed completion cache.  Fresh uuid handles are
modelled by the `next` counter; `entries` maps each minted handle to its
stored result record. -/
structure Cache where
  next : ℕ
  entries : List (ℕ × List (List Bool))
deriving DecidableEq

/-- The `n_shots` argument of `process_circuits`: a scalar (broadcast over
the circuits) or a per-circuit list. -/
inductive NShotsArg
  | scalar (n : ℤ)
  | perCircuit (ns : List ℤ)
deriving DecidableEq

/-- One iteration of the submission loop (source lines 189–194): mint a
fresh handle, run the circuit, store the result record under the handle. -/
def procStep (sample : List StimOp → ℤ → (ℕ → ℕ → Bool))
    (acc : List ℕ × Cache) (p : PCircuit × ℤ) : Except String (List ℕ × Cache) := do
  let res ← processOne sample p.1 p.2
  pure (acc.1 ++ [acc.2.next],
        (⟨acc.2.next + 1, acc.2.entries ++ [(acc.2.next, res)]⟩ : Cache))

/-- `StimBackend.process_circuits` (source lines 168–195): validate a
per-circuit shot list's length, then sequentially mint a handle, run one
circuit and store its result.  The base-class `valid_check` hook is
external to the source file and elided; it runs after the length check and
before the loop. -/
def processCircuits (sample : List StimOp → ℤ → (ℕ → ℕ → Bool))
    (circuits : List PCircuit) (nshots : NShotsArg) (cache : Cache) :
    Except String (List ℕ × Cache) :=
  match nshots with
  | .perCircuit l =>
      if l.length ≠ circuits.length then
        .error "The length of n_shots and circuits must match"
      else foldE (procStep sample) ([], cache) (circuits.zip l)
  | .scalar n =>
      foldE (procStep sample) ([], cache)
        (circuits.zip (List.replicate circuits.length n))

/-- `StimBackend.circuit_status` (source lines 197–200): `COMPLETED` when
the handle is cached, otherwise `CircuitNotRunError`. -/
def circuitStatus (cache : Cache) (h : ℕ) : Except String StatusEnum :=
  if h ∈ cache.entries.map (fun e => e.1) then .ok .completed
  else .error "CircuitNotRunError"

/-- Result retrieval from the cache (the `self._cache[handle]["result"]`
lookup backing `get_result`). -/
def getResult (cache : Cache) (h : ℕ) : Option (List (List Bool)) :=
  (cache.entries.find? (fun e => e.1 = h)).map (fun e => e.2)

/-! ## Component lemmas for ℚ(ζ₈) and M2 -/

@[simp] theorem Zeta8.mul_c0 (x y : Zeta8) :
    (x * y).c0 = x.c0 * y.c0 - x.c1 * y.c3 - x.c2 * y.c2 - x.c3 * y.c1 := rfl

@[simp] theorem Zeta8.mul_c1 (x y : Zeta8) :
    (x * y).c1 = x.c0 * y.c1 + x.c1 * y.c0 - x.c2 * y.c3 - x.c3 * y.c2 := rfl

@[simp] theorem Zeta8.mul_c2 (x y : Zeta8) :
    (x * y).c2 = x.c0 * y.c2 + x.c1 * y.c1 + x.c2 * y.c0 - x.c3 * y.c3 := rfl

@[simp] theorem Zeta8.mul_c3 (x y : Zeta8) :
    (x * y).c3 = x.c0 * y.c3 + x.c1 * y.c2 + x.c2 * y.c1 + x.c3 * y.c0 := rfl

@[simp] theorem Zeta8.add_c0 (x y : Zeta8) : (x + y).c0 = x.c0 + y.c0 := rfl

@[simp] theorem Zeta8.add_c1 (x y : Zeta8) : (x + y).c1 = x.c1 + y.c1 := rfl

@[simp] theorem Zeta8.add_c2 (x y : Zeta8) : (x + y).c2 = x.c2 + y.c2 := rfl

@[simp] theorem Zeta8.add_c3 (x y : Zeta8) : (x + y).c3 = x.c3 + y.c3 := rfl

@[simp] theorem Zeta8.neg_c0 (x : Zeta8) : (-x).c0 = -x.c0 := rfl

@[simp] theorem Zeta8.neg_c1 (x : Zeta8) : (-x).c1 = -x.c1 := rfl

@[simp] theorem Zeta8.neg_c2 (x : Zeta8) : (-x).c2 = -x.c2 := rfl

@[simp] theorem Zeta8.neg_c3 (x : Zeta8) : (-x).c3 = -x.c3 := rfl

@[simp] theorem Zeta8.one_c0 : (1 : Zeta8).c0 = 1 := rfl

@[simp] theorem Zeta8.one_c1 : (1 : Zeta8).c1 = 0 := rfl

@[simp] theorem Zeta8.one_c2 : (1 : Zeta8).c2 = 0 := rfl

@[simp] theorem Zeta8.one_c3 : (1 : Zeta8).c3 = 0 := rfl

@[simp] theorem Zeta8.zero_c0 : (0 : Zeta8).c0 = 0 := rfl

@[simp] theorem Zeta8.zero_c1 : (0 : Zeta8).c1 = 0 := rfl

@[simp] theorem Zeta8.zero_c2 : (0 : Zeta8).c2 = 0 := rfl

@[simp] theorem Zeta8.zero_c3 : (0 : Zeta8).c3 = 0 := rfl

@[simp] theorem M2.mul_e00 (x y : M2) :
    (x * y).e00 = x.e00 * y.e00 + x.e01 * y.e10 := rfl

@[simp] theorem M2.mul_e01 (x y : M2) :
    (x * y).e01 = x.e00 * y.e01 + x.e01 * y.e11 := rfl

@[simp] theorem M2.mul_e10 (x y : M2) :
    (x * y).e10 = x.e10 * y.e00 + x.e11 * y.e10 := rfl

@[simp] theorem M2.mul_e11 (x y : M2) :
    (x * y).e11 = x.e10 * y.e01 + x.e11 * y.e11 := rfl

@[simp] theorem M2.one_e00 : (1 : M2).e00 = 1 := rfl

@[simp] theorem M2.one_e01 : (1 : M2).e01 = 0 := rfl

@[simp] theorem M2.one_e10 : (1 : M2).e10 = 0 := rfl

@[simp] theorem M2.one_e11 : (1 : M2).e11 = 1 := rfl

@[simp] theorem M2.sm_e00 (z : Zeta8) (A : M2) : (M2.sm z A).e00 = z * A.e00 := rfl

@[simp] theorem M2.sm_e01 (z : Zeta8) (A : M2) : (M2.sm z A).e01 = z * A.e01 := rfl

@[simp] theorem M2.sm_e10 (z : Zeta8) (A : M2) : (M2.sm z A).e10 = z * A.e10 := rfl

@[simp] theorem M2.sm_e11 (z : Zeta8) (A : M2) : (M2.sm z A).e11 = z * A.e11 := rfl

/-! ## Powers of ζ -/

theorem Zeta8.zeta_pow2 : Zeta8.zeta ^ 2 = ⟨0, 0, 1, 0⟩ := by
  rw [pow_two]
  ext <;> simp [Zeta8.zeta]

theorem Zeta8.zeta_pow3 : Zeta8.zeta ^ 3 = ⟨0, 0, 0, 1⟩ := by
  rw [show (3 : ℕ) = 2 + 1 from rfl, pow_succ, Zeta8.zeta_pow2]
  ext <;> simp [Zeta8.zeta]

theorem Zeta8.zeta_pow4 : Zeta8.zeta ^ 4 = ⟨-1, 0, 0, 0⟩ := by
  rw [show (4 : ℕ) = 3 + 1 from rfl, pow_succ, Zeta8.zeta_pow3]
  ext <;> simp [Zeta8.zeta]

theorem Zeta8.zeta_pow7 : Zeta8.zeta ^ 7 = ⟨0, 0, 0, -1⟩ := by
  rw [show (7 : ℕ) = 4 + 3 from rfl, pow_add, Zeta8.zeta_pow4, Zeta8.zeta_pow3]
  ext <;> simp

theorem Zeta8.zeta_pow8 : Zeta8.zeta ^ 8 = 1 := by
  rw [show (8 : ℕ) = 7 + 1 from rfl, pow_succ, Zeta8.zeta_pow7]
  ext <;> simp [Zeta8.zeta]

theorem Zeta8.zeta_pow_mod (n : ℕ) : Zeta8.zeta ^ n = Zeta8.zeta ^ (n % 8) := by
  conv_lhs => rw [← Nat.div_add_mod n 8]
  rw [pow_add, pow_mul, Zeta8.zeta_pow8, one_pow, one_mul]

theorem Zeta8.zp_natCast (n : ℕ) : Zeta8.zp (n : ℤ) = Zeta8.zeta ^ n := by
  rw [Zeta8.zp, Zeta8.zeta_pow_mod n]
  congr 1

theorem Zeta8.zp_neg_natCast (n : ℕ) :
    Zeta8.zp (-(n : ℤ)) = (Zeta8.zeta ^ 7) ^ n := by
  rw [Zeta8.zp, ← pow_mul, Zeta8.zeta_pow_mod (7 * n)]
  congr 1
  omega

theorem Zeta8.zp_congr {a b : ℤ} (h : a % 8 = b % 8) : Zeta8.zp a = Zeta8.zp b := by
  rw [Zeta8.zp, Zeta8.zp, h]

/-! ## Scalar-multiplication algebra on M2 -/

theorem M2.sm_one (A : M2) : M2.sm 1 A = A := by
  ext <;> simp

theorem M2.sm_sm (z w : Zeta8) (A : M2) : M2.sm z (M2.sm w A) = M2.sm (z * w) A := by
  ext <;> simp <;> ring

theorem M2.sm_mul_left (z : Zeta8) (A B : M2) :
    M2.sm z A * B = M2.sm z (A * B) := by
  ext <;> simp <;> ring

theorem M2.mul_sm (z : Zeta8) (A B : M2) :
    A * M2.sm z B = M2.sm z (A * B) := by
  ext <;> simp <;> ring

/-! ## Generator-matrix facts -/

theorem gateU_H_sq : gateU .H * gateU .H = 1 := by
  ext <;> simp [gateU, Zeta8.invSqrt2] <;> norm_num

theorem sm_w_S : M2.sm (Zeta8.zeta ^ 7) (gateU .S) =
    ⟨Zeta8.zeta ^ 7, 0, 0, Zeta8.zeta⟩ := by
  simp only [gateU, Zeta8.zeta_pow2, Zeta8.zeta_pow7]
  ext <;> simp [Zeta8.zeta]

/-! ## The net unitary of a gate list -/

theorem foldl_gate (u : M2) (gs : List Gate) :
    gs.foldl (fun v g => gateU g * v) u =
      gs.foldl (fun v g => gateU g * v) 1 * u := by
  induction gs generalizing u with
  | nil => simp
  | cons g gs ih =>
      simp only [List.foldl_cons]
      rw [ih (gateU g * u), ih (gateU g * 1), mul_one, mul_assoc]

theorem listU_cons (g : Gate) (gs : List Gate) :
    listU (g :: gs) = listU gs * gateU g := by
  simp only [listU, List.foldl_cons]
  rw [foldl_gate, mul_one]

theorem listU_append (xs ys : List Gate) :
    listU (xs ++ ys) = listU ys * listU xs := by
  simp only [listU, List.foldl_append]
  rw [foldl_gate]

theorem listU_replicate (n : ℕ) (g : Gate) :
    listU (List.replicate n g) = gateU g ^ n := by
  induction n with
  | zero => simp [listU]
  | succ n ih => rw [List.replicate_succ, listU_cons, ih, pow_succ]

theorem listU_flatten_replicate (n : ℕ) (blk : List Gate) :
    listU ((List.replicate n blk).flatten) = listU blk ^ n := by
  induction n with
  | zero => simp [listU]
  | succ n ih => rw [List.replicate_succ, List.flatten_cons, listU_append, ih, pow_succ]

/-! ## Closed forms for the emission loops -/

theorem sLoop_eq (c : Circuit1) (n : ℕ) :
    sLoop c n = ⟨c.gates ++ List.replicate n Gate.S, c.phase⟩ := by
  induction n generalizing c with
  | zero => simp [sLoop]
  | succ n ih =>
      simp only [sLoop]
      rw [ih]
      simp [List.replicate_succ]

theorem hshLoop_eq (c : Circuit1) (n : ℕ) :
    hshLoop c n =
      ⟨c.gates ++ (List.replicate n [Gate.H, Gate.S, Gate.H]).flatten, c.phase⟩ := by
  induction n generalizing c with
  | zero => simp [hshLoop]
  | succ n ih =>
      simp only [hshLoop]
      rw [ih]
      simp [List.replicate_succ]

/-! ## The phased generator powers are exact quarter-turn rotations -/

theorem H_mul_H_mul (A : M2) : gateU .H * (gateU .H * A) = A := by
  rw [← mul_assoc, gateU_H_sq, one_mul]

theorem sm_pow_S (n : ℕ) :
    M2.sm ((Zeta8.zeta ^ 7) ^ n) (gateU .S ^ n) =
      ⟨(Zeta8.zeta ^ 7) ^ n, 0, 0, Zeta8.zeta ^ n⟩ := by
  induction n with
  | zero =>
      simp only [pow_zero, M2.sm_one]
      rfl
  | succ n ih =>
      have step : M2.sm ((Zeta8.zeta ^ 7) ^ (n + 1)) (gateU .S ^ (n + 1)) =
          M2.sm (Zeta8.zeta ^ 7) (gateU .S) *
            M2.sm ((Zeta8.zeta ^ 7) ^ n) (gateU .S ^ n) := by
        rw [M2.sm_mul_left, M2.mul_sm, M2.sm_sm, ← pow_succ', ← pow_succ']
      rw [step, sm_w_S, ih]
      ext <;> simp [pow_succ']

theorem sm_pow_HSH (n : ℕ) :
    M2.sm ((Zeta8.zeta ^ 7) ^ n) ((gateU .H * gateU .S * gateU .H) ^ n) =
      gateU .H * (⟨(Zeta8.zeta ^ 7) ^ n, 0, 0, Zeta8.zeta ^ n⟩ : M2) * gateU .H := by
  induction n with
  | zero =>
      simp only [pow_zero, M2.sm_one]
      have h1 : ((⟨1, 0, 0, 1⟩ : M2) : M2) = 1 := rfl
      rw [h1, mul_one, gateU_H_sq]
  | succ n ih =>
      have step : M2.sm ((Zeta8.zeta ^ 7) ^ (n + 1))
            ((gateU .H * gateU .S * gateU .H) ^ (n + 1)) =
          M2.sm (Zeta8.zeta ^ 7) (gateU .H * gateU .S * gateU .H) *
            M2.sm ((Zeta8.zeta ^ 7) ^ n) ((gateU .H * gateU .S * gateU .H) ^ n) := by
        rw [M2.sm_mul_left, M2.mul_sm, M2.sm_sm, ← pow_succ', ← pow_succ']
      have hwT : M2.sm (Zeta8.zeta ^ 7) (gateU .H * gateU .S * gateU .H) =
          gateU .H * M2.sm (Zeta8.zeta ^ 7) (gateU .S) * gateU .H := by
        rw [M2.mul_sm, M2.sm_mul_left]
      have hD : (⟨Zeta8.zeta ^ 7, 0, 0, Zeta8.zeta⟩ : M2) *
            ⟨(Zeta8.zeta ^ 7) ^ n, 0, 0, Zeta8.zeta ^ n⟩ =
          ⟨(Zeta8.zeta ^ 7) ^ (n + 1), 0, 0, Zeta8.zeta ^ (n + 1)⟩ := by
        ext <;> simp [pow_succ']
      rw [step, ih, hwT, sm_w_S, ← hD]
      simp only [mul_assoc]
      rw [H_mul_H_mul]

theorem M2.sm_mul_sm (z w : Zeta8) (A B : M2) :
    M2.sm z A * M2.sm w B = M2.sm (z * w) (A * B) := by
  rw [M2.sm_mul_left, M2.mul_sm, M2.sm_sm]

theorem rzZ_natCast (n : ℕ) :
    rzZ (n : ℤ) = ⟨(Zeta8.zeta ^ 7) ^ n, 0, 0, Zeta8.zeta ^ n⟩ := by
  unfold rzZ
  rw [Zeta8.zp_natCast, Zeta8.zp_neg_natCast]

theorem listU_HSH :
    listU [Gate.H, Gate.S, Gate.H] = gateU .H * gateU .S * gateU .H := by
  simp [listU, mul_assoc]

/-- The net unitary of the emitted fragment, for residues `x`, `y`, `z`:
it equals the reference rotation `tk1(x/2, y/2, z/2)`. -/
theorem emitted_unitary (x y z : ℕ) :
    circUnitary ⟨List.replicate z Gate.S ++
        (List.replicate y [Gate.H, Gate.S, Gate.H]).flatten ++
        List.replicate x Gate.S,
      -(1 / 4) * ((x : ℚ) + (y : ℚ) + (z : ℚ))⟩ = tk1U x y z := by
  unfold circUnitary
  rw [listU_append, listU_append, listU_replicate, listU_replicate,
    listU_flatten_replicate, listU_HSH]
  have hp : phaseFac (-(1 / 4) * ((x : ℚ) + (y : ℚ) + (z : ℚ))) =
      Zeta8.zp (-(((x + y + z : ℕ) : ℤ))) := by
    unfold phaseFac
    rw [show (4 : ℚ) * (-(1 / 4) * ((x : ℚ) + (y : ℚ) + (z : ℚ))) =
        ((-(((x + y + z : ℕ) : ℤ)) : ℤ) : ℚ) from by push_cast; ring]
    rw [Int.floor_intCast]
  rw [hp, Zeta8.zp_neg_natCast]
  rw [show ((x + y + z : ℕ)) = x + (y + z) from by omega, pow_add, pow_add]
  have key : M2.sm ((Zeta8.zeta ^ 7) ^ x * ((Zeta8.zeta ^ 7) ^ y * (Zeta8.zeta ^ 7) ^ z))
        (gateU .S ^ x * ((gateU .H * gateU .S * gateU .H) ^ y * gateU .S ^ z)) =
      M2.sm ((Zeta8.zeta ^ 7) ^ x) (gateU .S ^ x) *
        (M2.sm ((Zeta8.zeta ^ 7) ^ y) ((gateU .H * gateU .S * gateU .H) ^ y) *
          M2.sm ((Zeta8.zeta ^ 7) ^ z) (gateU .S ^ z)) := by
    rw [M2.sm_mul_sm, M2.sm_mul_sm]
  rw [key, sm_pow_S x, sm_pow_S z, sm_pow_HSH y]
  unfold tk1U rxZ
  rw [rzZ_natCast x, rzZ_natCast y, rzZ_natCast z]
  simp only [mul_assoc]

/-- `tk1U` only depends on the residues of its quarter-turn counts mod 8. -/
theorem tk1U_emod (ma mb mc : ℤ) :
    tk1U (ma % 8) (mb % 8) (mc % 8) = tk1U ma mb mc := by
  have h1 : ∀ m : ℤ, Zeta8.zp (m % 8) = Zeta8.zp m := fun m =>
    Zeta8.zp_congr (by omega)
  have h2 : ∀ m : ℤ, Zeta8.zp (-(m % 8)) = Zeta8.zp (-m) := fun m =>
    Zeta8.zp_congr (by omega)
  unfold tk1U rxZ rzZ
  rw [h1, h1, h1, h2, h2, h2]

/-! ## Reduction lemmas for `Except` programs -/

theorem bindE {α β : Type} (a : α) (f : α → Except String β) :
    (Except.ok a >>= f) = f a := rfl

theorem bindErr {α β : Type} (e : String) (f : α → Except String β) :
    ((Except.error e : Except String α) >>= f) = .error e := rfl

theorem pureE {α : Type} (a : α) : (pure a : Except String α) = .ok a := rfl

/-! ## The decomposer's acceptance test -/

theorem roundHalfEven_intCast (m : ℤ) : roundHalfEven (m : ℚ) = m := by
  unfold roundHalfEven
  rw [Int.floor_intCast]
  norm_num

theorem int_double_close (x : ℚ)
    (h : isclose (2 * x) ((roundHalfEven (2 * x) : ℤ) : ℚ) = true) :
    int_double x = .ok (roundHalfEven (2 * x) % 8) := by
  simp [int_double, h]

theorem int_double_far (x : ℚ)
    (h : isclose (2 * x) ((roundHalfEven (2 * x) : ℤ) : ℚ) = false) :
    int_double x = .error "Non-Clifford angle encountered" := by
  simp [int_double, h]

theorem int_double_error_msg (x : ℚ) (e : String)
    (h : int_double x = .error e) : e = "Non-Clifford angle encountered" := by
  unfold int_double at h
  split_ifs at h
  exact (Except.error.inj h).symm

theorem int_double_half (m : ℤ) : int_double ((m : ℚ) / 2) = .ok (m % 8) := by
  have h2 : (2 : ℚ) * ((m : ℚ) / 2) = (m : ℚ) := by ring
  have hr : roundHalfEven ((2 : ℚ) * ((m : ℚ) / 2)) = m := by
    rw [h2, roundHalfEven_intCast]
  have hc : isclose (2 * ((m : ℚ) / 2))
      ((roundHalfEven (2 * ((m : ℚ) / 2)) : ℤ) : ℚ) = true := by
    rw [hr, h2]
    unfold isclose
    rw [decide_eq_true_eq, sub_self, abs_zero]
    unfold atol rtol
    positivity
  rw [int_double_close _ hc, hr]

/-- `roundHalfEven q` is a nearest integer to `q`. -/
theorem roundHalfEven_nearest (q : ℚ) (m : ℤ) :
    |q - (roundHalfEven q : ℚ)| ≤ |q - (m : ℚ)| := by
  have hf : (⌊q⌋ : ℚ) ≤ q := Int.floor_le q
  have hf1 : q < (⌊q⌋ : ℚ) + 1 := Int.lt_floor_add_one q
  have hm : m ≤ ⌊q⌋ ∨ ⌊q⌋ + 1 ≤ m := by omega
  have hmq : ((m : ℚ) ≤ (⌊q⌋ : ℚ)) ∨ ((⌊q⌋ : ℚ) + 1 ≤ (m : ℚ)) := by
    rcases hm with h | h
    · exact Or.inl (by exact_mod_cast h)
    · exact Or.inr (by exact_mod_cast h)
  unfold roundHalfEven
  split_ifs with h1 h2 h3 <;> push_cast <;> rcases hmq with hm' | hm'
  · rw [abs_of_nonneg (by linarith), abs_of_nonneg (by linarith)]
    linarith
  · rw [abs_of_nonneg (by linarith), abs_of_nonpos (by linarith)]
    linarith
  · rw [abs_of_nonpos (by linarith), abs_of_nonneg (by linarith)]
    linarith
  · rw [abs_of_nonpos (by linarith), abs_of_nonpos (by linarith)]
    linarith
  · have hr : q - (⌊q⌋ : ℚ) = 1 / 2 := le_antisymm (not_lt.mp h2) (not_lt.mp h1)
    rw [abs_of_nonneg (by linarith), abs_of_nonneg (by linarith)]
    linarith
  · have hr : q - (⌊q⌋ : ℚ) = 1 / 2 := le_antisymm (not_lt.mp h2) (not_lt.mp h1)
    rw [abs_of_nonneg (by linarith), abs_of_nonpos (by linarith)]
    linarith
  · have hr : q - (⌊q⌋ : ℚ) = 1 / 2 := le_antisymm (not_lt.mp h2) (not_lt.mp h1)
    rw [abs_of_nonpos (by linarith), abs_of_nonneg (by linarith)]
    linarith
  · have hr : q - (⌊q⌋ : ℚ) = 1 / 2 := le_antisymm (not_lt.mp h2) (not_lt.mp h1)
    rw [abs_of_nonpos (by linarith), abs_of_nonpos (by linarith)]
    linarith

/-- Error propagation: `tk1_to_cliff` fails with the decomposer's error when
any of the three component decompositions fails. -/
theorem tk1_to_cliff_err (a b c : ℚ)
    (h : int_double a = .error "Non-Clifford angle encountered" ∨
      int_double b = .error "Non-Clifford angle encountered" ∨
      int_double c = .error "Non-Clifford angle encountered") :
    tk1_to_cliff a b c = .error "Non-Clifford angle encountered" := by
  unfold tk1_to_cliff
  cases hA : int_double a with
  | error e =>
      rw [int_double_error_msg a e hA]
      rfl
  | ok na =>
      rw [bindE]
      cases hB : int_double b with
      | error e =>
          rw [int_double_error_msg b e hB]
          rfl
      | ok nb =>
          rw [bindE]
          cases hC : int_double c with
          | error e =>
              rw [int_double_error_msg c e hC]
              rfl
          | ok nc =>
              rcases h with h | h | h
              · rw [hA] at h
                exact absurd h (by simp)
              · rw [hB] at h
                exact absurd h (by simp)
              · rw [hC] at h
                exact absurd h (by simp)

/-- Closed form of `_tk1_to_cliff` on accepted inputs: the emitted gate
list and global phase, as functions of the three residues. -/
theorem tk1_to_cliff_eq (a b c : ℚ) (na nb nc : ℤ)
    (ha : int_double a = .ok na) (hb : int_double b = .ok nb)
    (hc : int_double c = .ok nc) :
    tk1_to_cliff a b c = .ok
      ⟨List.replicate nc.toNat Gate.S ++
        (List.replicate nb.toNat [Gate.H, Gate.S, Gate.H]).flatten ++
        List.replicate na.toNat Gate.S,
       -(1 / 4) * ((na : ℚ) + (nb : ℚ) + (nc : ℚ))⟩ := by
  unfold tk1_to_cliff
  rw [ha, bindE, hb, bindE, hc, bindE]
  simp only [sLoop_eq, hshLoop_eq, pureE]
  simp

/-- C1: for every half-integer angle triple `(ma/2, mb/2, mc/2)` in
half-turn units — which covers all 8×8×8 canonical residue combinations of
the doubled angles mod 8 — `_tk1_to_cliff` succeeds, and the emitted S/H
generator sequence together with its global-phase correction has net
unitary action exactly equal to the original rotation `tk1(ma/2, mb/2,
mc/2)`. -/
theorem spec_C1_decomposer_unitary (ma mb mc : ℤ) :
    (tk1_to_cliff ((ma : ℚ) / 2) ((mb : ℚ) / 2) ((mc : ℚ) / 2)).map circUnitary =
      Except.ok (tk1U ma mb mc) := by
  rw [tk1_to_cliff_eq _ _ _ _ _ _ (int_double_half ma) (int_double_half mb)
    (int_double_half mc)]
  simp only [Except.map]
  congr 1
  have ha0 : ((ma % 8).toNat : ℤ) = ma % 8 := Int.toNat_of_nonneg (by omega)
  have hb0 : ((mb % 8).toNat : ℤ) = mb % 8 := Int.toNat_of_nonneg (by omega)
  have hc0 : ((mc % 8).toNat : ℤ) = mc % 8 := Int.toNat_of_nonneg (by omega)
  have hna : ((ma % 8 : ℤ) : ℚ) = (((ma % 8).toNat : ℕ) : ℚ) := by
    rw [← ha0]
    norm_cast
  have hnb : ((mb % 8 : ℤ) : ℚ) = (((mb % 8).toNat : ℕ) : ℚ) := by
    rw [← hb0]
    norm_cast
  have hnc : ((mc % 8 : ℤ) : ℚ) = (((mc % 8).toNat : ℕ) : ℚ) := by
    rw [← hc0]
    norm_cast
  rw [hna, hnb, hnc, emitted_unitary, ha0, hb0, hc0, tk1U_emod]

/-- C3: `_int_double` rounds the doubled parameter to a nearest integer
`n`; when the doubled parameter passes the `np.isclose` test against `n`
it returns `n mod 8`, an integer in `0..7`, and otherwise it fails with the
Non-Clifford-angle error; consequently `_tk1_to_cliff` fails with that
error whenever at least one component is not within tolerance of a
half-integer. -/
theorem spec_C3_tolerance_gate :
    (∀ q : ℚ, ∀ m : ℤ, |q - (roundHalfEven q : ℚ)| ≤ |q - (m : ℚ)|) ∧
    (∀ x : ℚ, isclose (2 * x) ((roundHalfEven (2 * x) : ℤ) : ℚ) = true →
      int_double x = .ok (roundHalfEven (2 * x) % 8) ∧
      0 ≤ roundHalfEven (2 * x) % 8 ∧ roundHalfEven (2 * x) % 8 < 8) ∧
    (∀ x : ℚ, isclose (2 * x) ((roundHalfEven (2 * x) : ℤ) : ℚ) = false →
      int_double x = .error "Non-Clifford angle encountered") ∧
    (∀ a b c : ℚ,
      (isclose (2 * a) ((roundHalfEven (2 * a) : ℤ) : ℚ) = false ∨
        isclose (2 * b) ((roundHalfEven (2 * b) : ℤ) : ℚ) = false ∨
        isclose (2 * c) ((roundHalfEven (2 * c) : ℤ) : ℚ) = false) →
      tk1_to_cliff a b c = .error "Non-Clifford angle encountered") := by
  refine ⟨roundHalfEven_nearest, ?_, ?_, ?_⟩
  · intro x h
    exact ⟨int_double_close x h, by omega, by omega⟩
  · intro x h
    exact int_double_far x h
  · intro a b c h
    apply tk1_to_cliff_err
    rcases h with h | h | h
    · exact Or.inl (int_double_far a h)
    · exact Or.inr (Or.inl (int_double_far b h))
    · exact Or.inr (Or.inr (int_double_far c h))

/-- Witness for C3 at concrete inputs: `x = 3/2` is accepted with residue
3, and the triple `(1/4, 0, 0)` is rejected with the Non-Clifford error. -/
theorem spec_C3_witness :
    int_double (3 / 2 : ℚ) = .ok 3 ∧
    tk1_to_cliff (1 / 4 : ℚ) 0 0 = .error "Non-Clifford angle encountered" := by
  constructor
  · have hr : roundHalfEven (2 * (3 / 2 : ℚ)) = 3 := by
      norm_num [roundHalfEven]
    have hcl : isclose (2 * (3 / 2 : ℚ))
        ((roundHalfEven (2 * (3 / 2 : ℚ)) : ℤ) : ℚ) = true := by
      rw [hr]
      norm_num [isclose, atol, rtol]
    have h := (spec_C3_tolerance_gate.2.1 (3 / 2 : ℚ) hcl).1
    rw [hr, show ((3 : ℤ) % 8) = 3 from by decide] at h
    exact h
  · have hr : roundHalfEven (2 * (1 / 4 : ℚ)) = 0 := by
      norm_num [roundHalfEven]
    have hfar : isclose (2 * (1 / 4 : ℚ))
        ((roundHalfEven (2 * (1 / 4 : ℚ)) : ℤ) : ℚ) = false := by
      rw [hr]
      norm_num [isclose, atol, rtol]
      rw [abs_of_nonneg (by norm_num : (0 : ℚ) ≤ 1 / 2)]
      norm_num
    exact spec_C3_tolerance_gate.2.2.2 (1 / 4) 0 0 (Or.inl hfar)

/-- C4: on accepted residues `(na, nb, nc)` the decomposer emits exactly
`nc` S gates, then `nb` copies of the pattern H,S,H, then `na` S gates, in
that order, and sets the global phase to `-(1/4)·(na + nb + nc)` half-turns
(that is, `-π/4·(na + nb + nc)` radians). -/
theorem spec_C4_emission (a b c : ℚ) (na nb nc : ℤ)
    (ha : int_double a = .ok na) (hb : int_double b = .ok nb)
    (hc : int_double c = .ok nc) :
    tk1_to_cliff a b c = .ok
      ⟨List.replicate nc.toNat Gate.S ++
        (List.replicate nb.toNat [Gate.H, Gate.S, Gate.H]).flatten ++
        List.replicate na.toNat Gate.S,
       -(1 / 4) * ((na : ℚ) + (nb : ℚ) + (nc : ℚ))⟩ :=
  tk1_to_cliff_eq a b c na nb nc ha hb hc

/-- Witness for C4 at `(1/2, 1/2, 1/2)`: one S, one H,S,H block, one more
S, with global phase `-3/4`. -/
theorem spec_C4_witness :
    tk1_to_cliff (1 / 2 : ℚ) (1 / 2) (1 / 2) =
      .ok ⟨[Gate.S, Gate.H, Gate.S, Gate.H, Gate.S], -(3 / 4)⟩ := by
  have h1 : int_double (1 / 2 : ℚ) = .ok 1 := by
    have h := int_double_half 1
    rw [show ((1 : ℤ) % 8) = 1 from by decide] at h
    norm_num at h
    exact h
  rw [spec_C4_emission (1 / 2) (1 / 2) (1 / 2) 1 1 1 h1 h1 h1]
  norm_num

/-! ## Generic lemmas about failing folds and maps -/

theorem foldE_append_error {σ α : Type} (f : σ → α → Except String σ) (s : σ)
    (xs ys : List α) (e : String) (h : foldE f s xs = .error e) :
    foldE f s (xs ++ ys) = .error e := by
  induction xs generalizing s with
  | nil => simp [foldE] at h
  | cons x xs ih =>
      rw [List.cons_append]
      simp only [foldE] at h ⊢
      cases hx : f s x with
      | error e2 =>
          rw [hx] at h
          exact h
      | ok s2 =>
          rw [hx] at h
          exact ih s2 h

theorem mapE_length {α β : Type} (f : α → Except String β) (xs : List α)
    (ys : List β) (h : mapE f xs = .ok ys) : ys.length = xs.length := by
  induction xs generalizing ys with
  | nil =>
      unfold mapE at h
      injection h with h2
      subst h2
      rfl
  | cons x xs ih =>
      unfold mapE at h
      cases hx : f x with
      | error e =>
          rw [hx, bindErr] at h
          cases h
      | ok y =>
          rw [hx, bindE] at h
          cases hm : mapE f xs with
          | error e =>
              rw [hm, bindErr] at h
              cases h
          | ok ys2 =>
              rw [hm, bindE, pureE] at h
              injection h with h2
              subst h2
              simp [ih ys2 hm]

theorem mapE_getD {α β : Type} (f : α → Except String β) (xs : List α)
    (ys : List β) (h : mapE f xs = .ok ys) (i : ℕ) (hi : i < xs.length)
    (d : α) (d2 : β) : f (xs.getD i d) = .ok (ys.getD i d2) := by
  induction xs generalizing ys i with
  | nil => simp at hi
  | cons x xs ih =>
      unfold mapE at h
      cases hx : f x with
      | error e =>
          rw [hx, bindErr] at h
          cases h
      | ok y =>
          rw [hx, bindE] at h
          cases hm : mapE f xs with
          | error e =>
              rw [hm, bindErr] at h
              cases h
          | ok ys2 =>
              rw [hm, bindE, pureE] at h
              injection h with h2
              subst h2
              cases i with
              | zero => simpa using hx
              | succ i =>
                  simp only [List.getD_cons_succ]
                  exact ih ys2 hm i (by simpa using hi)

theorem mapE_ok {α β : Type} (f : α → Except String β) (xs : List α)
    (h : ∀ x ∈ xs, ∃ y, f x = .ok y) : ∃ ys, mapE f xs = .ok ys := by
  induction xs with
  | nil => exact ⟨[], rfl⟩
  | cons x xs ih =>
      obtain ⟨y, hy⟩ := h x (by simp)
      obtain ⟨ys, hys⟩ := ih (fun a ha => h a (by simp [ha]))
      refine ⟨y :: ys, ?_⟩
      unfold mapE
      rw [hy, bindE, hys, bindE, pureE]

theorem mapE_error_of_mem {α β : Type} (f : α → Except String β) (xs : List α)
    (e : String) (hex : ∃ x ∈ xs, f x = .error e)
    (hall : ∀ x ∈ xs, ∀ e2, f x = .error e2 → e2 = e) :
    mapE f xs = .error e := by
  induction xs with
  | nil => simp at hex
  | cons x xs ih =>
      unfold mapE
      cases hx : f x with
      | error e2 =>
          have he : e2 = e := hall x (by simp) e2 hx
          subst he
          rfl
      | ok y =>
          rw [bindE]
          have hex2 : ∃ a ∈ xs, f a = .error e := by
            rcases hex with ⟨a, ha, hae⟩
            rcases List.mem_cons.mp ha with rfl | ha2
            · rw [hx] at hae
              cases hae
            · exact ⟨a, ha2, hae⟩
          rw [ih hex2 (fun a ha => hall a (by simp [ha]))]
          rfl

/-! ## First-occurrence indices in the ledger -/

theorem listIdx_lt_of_mem (xs : List ℕ) (x : ℕ) (h : x ∈ xs) :
    listIdx xs x < xs.length := by
  induction xs with
  | nil => simp at h
  | cons y ys ih =>
      by_cases hy : y = x
      · simp [listIdx, hy]
      · have hx : x ∈ ys := by
          rcases List.mem_cons.mp h with rfl | h2
          · exact absurd rfl hy
          · exact h2
        simp only [listIdx, if_neg hy, List.length_cons]
        exact Nat.succ_lt_succ (ih hx)

theorem getD_listIdx (xs : List ℕ) (x : ℕ) (h : x ∈ xs) :
    xs.getD (listIdx xs x) 0 = x := by
  induction xs with
  | nil => simp at h
  | cons y ys ih =>
      by_cases hy : y = x
      · simp [listIdx, hy]
      · have hx : x ∈ ys := by
          rcases List.mem_cons.mp h with rfl | h2
          · exact absurd rfl hy
          · exact h2
        simp only [listIdx, if_neg hy, List.getD_cons_succ]
        exact ih hx

theorem listIdx_of_nodup (xs : List ℕ) (x : ℕ) (p : ℕ) (hnd : xs.Nodup)
    (hp : p < xs.length) (hx : xs.getD p 0 = x) : listIdx xs x = p := by
  induction xs generalizing p with
  | nil => simp at hp
  | cons y ys ih =>
      cases p with
      | zero =>
          have hy : y = x := by simpa using hx
          simp [listIdx, hy]
      | succ p =>
          have hys : ys.getD p 0 = x := by simpa using hx
          have hplen : p < ys.length := by simpa using hp
          have hxmem : x ∈ ys := by
            rw [← hys, List.getD_eq_getElem ys 0 hplen]
            exact List.getElem_mem hplen
          have hy : y ≠ x := fun he => (List.nodup_cons.mp hnd).1 (he ▸ hxmem)
          simp only [listIdx, if_neg hy]
          rw [ih p (List.nodup_cons.mp hnd).2 hplen hys]

theorem count_one_unique (xs : List ℕ) (x : ℕ) (h : xs.count x = 1) :
    ∃ p, p < xs.length ∧ xs.getD p 0 = x ∧
      ∀ p2, p2 < xs.length → xs.getD p2 0 = x → p2 = p := by
  induction xs with
  | nil => simp at h
  | cons y ys ih =>
      by_cases hy : y = x
      · subst hy
        have h0 : ys.count y = 0 := by
          have hself := List.count_cons_self y ys
          omega
        have hnot : y ∉ ys := List.count_eq_zero.mp h0
        refine ⟨0, by simp, by simp, ?_⟩
        intro p2 hp2 hx2
        cases p2 with
        | zero => rfl
        | succ p2 =>
            exfalso
            have hys : ys.getD p2 0 = y := by simpa using hx2
            have hlen : p2 < ys.length := by simpa using hp2
            exact hnot (by
              rw [← hys, List.getD_eq_getElem ys 0 hlen]
              exact List.getElem_mem hlen)
      · have hcount : ys.count x = 1 := by
          have hc := List.count_cons_of_ne (fun he : x = y => hy he.symm) ys
          omega
        obtain ⟨p, hp, hgx, huniq⟩ := ih hcount
        refine ⟨p + 1, by simpa using hp, by simpa using hgx, ?_⟩
        intro p2 hp2 hx2
        cases p2 with
        | zero =>
            exact absurd (by simpa using hx2) hy
        | succ p2 =>
            have := huniq p2 (by simpa using hp2) (by simpa using hx2)
            omega

/-! ## Characterizing one translation step -/

theorem mapE_error_mem {α β : Type} (f : α → Except String β) (xs : List α)
    (e : String) (h : mapE f xs = .error e) : ∃ x ∈ xs, f x = .error e := by
  induction xs with
  | nil =>
      unfold mapE at h
      cases h
  | cons x xs ih =>
      unfold mapE at h
      cases hx : f x with
      | error e2 =>
          rw [hx, bindErr] at h
          injection h with h2
          exact ⟨x, by simp, by rw [hx, h2]⟩
      | ok y =>
          rw [hx, bindE] at h
          cases hm : mapE f xs with
          | error e2 =>
              rw [hm, bindErr] at h
              injection h with h2
              obtain ⟨a, ha, hae⟩ := ih (by rw [hm, h2])
              exact ⟨a, by simp [ha], hae⟩
          | ok ys =>
              rw [hm, bindE, pureE] at h
              cases h

theorem pyIndexArg_error_msg (qubits : List ℕ) (a : Arg) (e : String)
    (h : pyIndexArg qubits a = .error e) : e = "is not in list" := by
  cases a with
  | q i =>
      simp only [pyIndexArg, pyIndex] at h
      split_ifs at h
      exact (Except.error.inj h).symm
  | b i =>
      exact (Except.error.inj h).symm

theorem gateMap_mem_iff (o : OpT) : o ∈ stimGateSet ↔ (gateMap o).isSome = true := by
  cases o <;> decide

theorem measuredBits_cons (c : Cmd) (cs : List Cmd) :
    measuredBits (c :: cs) = measuredBits [c] ++ measuredBits cs := by
  unfold measuredBits
  rw [List.filterMap_cons, List.filterMap_cons]
  cases hf : (if c.op = OpT.Measure then
      match c.args with
      | [Arg.q _, Arg.b cb] => some cb
      | _ => none
    else none) with
  | none => simp
  | some cb => simp

/-- Case analysis of one translation step: it either succeeds, extending
the ledger by the measured bit (if any) and keeping it duplicate-free; or
it fails with the overwrite error, in which case the extended ledger really
has a duplicate; or it fails earlier (index/arity/key error), in which case
the command is ill-formed, and a key error only happens for an operation
outside the stim gate set. -/
theorem transStep_spec (qubits : List ℕ) (st : List StimOp × List ℕ) (c : Cmd) :
    (∃ st2, transStep qubits st c = .ok st2 ∧
        st2.2 = st.2 ++ measuredBits [c] ∧ st2.2.Nodup) ∨
    (transStep qubits st c = .error "Measurement overwritten" ∧
        ¬(st.2 ++ measuredBits [c]).Nodup) ∨
    (∃ e, transStep qubits st c = .error e ∧ e ≠ "Measurement overwritten" ∧
        cmdWF qubits c = false ∧ (e = "KeyError" → ¬c.op ∈ stimGateSet)) := by
  obtain ⟨op, args⟩ := c
  by_cases hop : op = OpT.Measure
  · subst hop
    rcases args with - | ⟨q1 | b1, - | ⟨q2 | b2, - | ⟨a3, rest⟩⟩⟩
    all_goals try
      (right; right;
        refine ⟨"bad measurement arguments", ?_, by decide, ?_,
          fun hk => absurd hk (by decide)⟩ <;>
        simp [transStep, emitStep, cmdWF] <;> done)
    -- remaining: args = [Arg.q q1, Arg.b b2]
    by_cases hqb : q1 ∈ qubits
    · have hpi : pyIndex qubits q1 = .ok (listIdx qubits q1) := by
        simp [pyIndex, hqb]
      by_cases hnd : (st.2 ++ [b2]).Nodup
      · left
        refine ⟨(st.1 ++ [("M", [listIdx qubits q1])], st.2 ++ [b2]), ?_, ?_, hnd⟩
        · simp [transStep, emitStep, hpi, hnd]
        · simp [measuredBits]
      · right; left
        constructor
        · simp [transStep, emitStep, hpi, hnd]
        · simpa [measuredBits] using hnd
    · right; right
      refine ⟨"is not in list", ?_, by decide, ?_, fun hk => absurd hk (by decide)⟩
      · simp [transStep, emitStep, pyIndex, hqb]
      · simp [cmdWF, hqb]
  · cases hm : mapE (pyIndexArg qubits) args with
    | error e =>
        right; right
        obtain ⟨a, ha, hae⟩ := mapE_error_mem _ _ _ hm
        have he : e = "is not in list" := pyIndexArg_error_msg qubits a e hae
        subst he
        refine ⟨"is not in list", ?_, by decide, ?_, fun hk => absurd hk (by decide)⟩
        · simp [transStep, emitStep, hop, hm]
        · apply Bool.eq_false_iff.mpr
          intro hwf
          unfold cmdWF at hwf
          rw [if_neg hop] at hwf
          simp only [Bool.and_eq_true, List.all_eq_true, decide_eq_true_eq] at hwf
          have h2 := hwf.2 a ha
          cases a with
          | q i =>
              simp only [decide_eq_true_eq] at h2
              simp [pyIndexArg, pyIndex, h2] at hae
          | b i => simp at h2
    | ok qbs =>
        cases hg : gateMap op with
        | none =>
            right; right
            refine ⟨"KeyError", ?_, by decide, ?_, fun _ => ?_⟩
            · simp [transStep, emitStep, hop, hm, hg]
            · apply Bool.eq_false_iff.mpr
              intro hwf
              unfold cmdWF at hwf
              rw [if_neg hop] at hwf
              simp only [Bool.and_eq_true, decide_eq_true_eq] at hwf
              have hs := (gateMap_mem_iff op).mp hwf.1
              rw [hg] at hs
              cases hs
            · intro hmem
              have hs := (gateMap_mem_iff op).mp hmem
              rw [hg] at hs
              cases hs
        | some nm =>
            by_cases hnd : st.2.Nodup
            · left
              refine ⟨(st.1 ++ [(nm, qbs)], st.2), ?_, ?_, hnd⟩
              · simp [transStep, emitStep, hop, hm, hg, hnd]
              · simp [measuredBits, hop]
            · right; left
              constructor
              · simp [transStep, emitStep, hop, hm, hg, hnd]
              · simpa [measuredBits, hop] using hnd

/-! ## The translation loop and duplicate detection -/

theorem foldE_trans_no_overwrite (qubits : List ℕ) (cmds : List Cmd) :
    ∀ st : List StimOp × List ℕ, (st.2 ++ measuredBits cmds).Nodup →
    foldE (transStep qubits) st cmds ≠ .error "Measurement overwritten" := by
  induction cmds with
  | nil =>
      intro st _ h
      simp [foldE] at h
  | cons c cs ih =>
      intro st h
      simp only [foldE]
      rcases transStep_spec qubits st c with
        ⟨st2, hok, hled, _⟩ | ⟨herr, hdup⟩ | ⟨e, herr, hne, _, _⟩
      · rw [hok]
        have h2 : (st2.2 ++ measuredBits cs).Nodup := by
          rw [hled, List.append_assoc]
          rw [measuredBits_cons] at h
          exact h
        exact ih st2 h2
      · exfalso
        apply hdup
        rw [measuredBits_cons, ← List.append_assoc] at h
        exact h.of_append_left
      · rw [herr]
        intro hc
        exact hne (Except.error.inj hc)

theorem foldE_trans_overwrite (qubits : List ℕ) (cmds : List Cmd) :
    ∀ st : List StimOp × List ℕ, (∀ c2 ∈ cmds, cmdWF qubits c2 = true) →
    st.2.Nodup → ¬(st.2 ++ measuredBits cmds).Nodup →
    foldE (transStep qubits) st cmds = .error "Measurement overwritten" := by
  induction cmds with
  | nil =>
      intro st _ hst hdup
      exfalso
      apply hdup
      simpa [measuredBits] using hst
  | cons c cs ih =>
      intro st hwf hst hdup
      simp only [foldE]
      rcases transStep_spec qubits st c with
        ⟨st2, hok, hled, hnd⟩ | ⟨herr, _⟩ | ⟨e, herr, hne, hwfc, _⟩
      · rw [hok]
        apply ih st2 (fun c2 hc2 => hwf c2 (by simp [hc2])) hnd
        intro hcon
        apply hdup
        rw [measuredBits_cons, ← List.append_assoc]
        rw [hled] at hcon
        rw [List.append_assoc] at hcon
        rw [← List.append_assoc] at hcon
        exact hcon
      · rw [herr]
      · exfalso
        have := hwf c (by simp)
        rw [hwfc] at this
        cases this

/-- C5: re-measuring the same classical bit within one circuit is detected:
translation of a well-formed circuit whose measured-bit multiset has a
duplicate fails with the overwrite error; translation of a circuit whose
measured bits are all distinct never produces that error; and a failing
prefix determines the result no matter what commands follow (the loop
fails immediately at the first offending command). -/
theorem spec_C5_measurement_overwritten :
    (∀ circ : PCircuit, (measuredBits circ.cmds).Nodup →
        translateC circ ≠ .error "Measurement overwritten") ∧
    (∀ circ : PCircuit, circWF circ = true →
        ¬(measuredBits circ.cmds).Nodup →
        translateC circ = .error "Measurement overwritten") ∧
    (∀ (qubits : List ℕ) (st : List StimOp × List ℕ) (cmds extra : List Cmd)
        (e : String), foldE (transStep qubits) st cmds = .error e →
        foldE (transStep qubits) st (cmds ++ extra) = .error e) := by
  refine ⟨?_, ?_, ?_⟩
  · intro circ hnd
    unfold translateC
    apply foldE_trans_no_overwrite
    simpa using hnd
  · intro circ hwf hdup
    unfold translateC
    apply foldE_trans_overwrite
    · intro c2 hc2
      exact List.all_eq_true.mp hwf c2 hc2
    · exact List.nodup_nil
    · simpa using hdup
  · exact fun qubits st cmds extra e h => foldE_append_error _ _ _ _ _ h

/-- Witness for C5: measuring bit 0 twice (from two different qubits)
raises the overwrite error. -/
theorem spec_C5_witness :
    translateC ⟨[0, 1], [0], [⟨.Measure, [.q 0, .b 0]⟩, ⟨.Measure, [.q 1, .b 0]⟩]⟩ =
      .error "Measurement overwritten" :=
  spec_C5_measurement_overwritten.2.1 _ (by decide) (by decide)

/-- C10: the gate set checked by `required_predicates` is exactly the key
set of the `_gate` translation dict, so on any circuit passing the gate-set
predicate the translation loop's `_gate[optype]` lookup never fails. -/
theorem spec_C10_gate_map_total :
    (∀ o : OpT, o ∈ stimGateSet ↔ (gateMap o).isSome = true) ∧
    (∀ circ : PCircuit, gateSetPred circ = true →
        translateC circ ≠ .error "KeyError") := by
  refine ⟨gateMap_mem_iff, ?_⟩
  intro circ hpred
  unfold translateC
  have key : ∀ cmds : List Cmd, (∀ c ∈ cmds, c.op ∈ stimGateSet) →
      ∀ st, foldE (transStep circ.qubits) st cmds ≠ .error "KeyError" := by
    intro cmds
    induction cmds with
    | nil =>
        intro _ st h
        simp [foldE] at h
    | cons c cs ih =>
        intro hmem st
        simp only [foldE]
        rcases transStep_spec circ.qubits st c with
          ⟨st2, hok, _, _⟩ | ⟨herr, _⟩ | ⟨e, herr, _, _, hke⟩
        · rw [hok]
          exact ih (fun c2 hc2 => hmem c2 (by simp [hc2])) st2
        · rw [herr]
          intro hc
          exact absurd (Except.error.inj hc) (by decide)
        · rw [herr]
          intro hc
          exact hke (Except.error.inj hc) (hmem c (by simp))
  apply key
  intro c hc
  have h2 := List.all_eq_true.mp hpred c hc
  simpa using h2

/-- Witness for C10: a circuit using only supported gates never hits a
missing translation key. -/
theorem spec_C10_witness :
    translateC ⟨[0], [0], [⟨.H, [.q 0]⟩, ⟨.X, [.q 0]⟩]⟩ ≠ .error "KeyError" :=
  spec_C10_gate_map_total.2 _ (by decide)

/-! ## Result assembly: declared order versus ledger order -/

/-- C2: whenever processing succeeds, the assembled result record has one
row per trial, and the entry in row `k` at declared position `j` is the raw
outcome of row `k` at the ledger position of the `j`-th declared bit; when
the ledger is duplicate-free, that ledger position is the unique position
at which the bit was emitted, so the assembled columns are exactly the
ledger columns permuted into declared order. -/
theorem spec_C2_declared_order (sample : List StimOp → ℤ → (ℕ → ℕ → Bool))
    (circ : PCircuit) (nshots : ℤ) (ops : List StimOp) (readout : List ℕ)
    (out : List (List Bool))
    (htr : translateC circ = .ok (ops, readout))
    (hout : processOne sample circ nshots = .ok out) :
    out.length = nshots.toNat ∧
    (∀ k j, k < nshots.toNat → j < circ.bits.length →
      (out.getD k []).getD j false =
        sample ops nshots k (listIdx readout (circ.bits.getD j 0))) ∧
    (readout.Nodup → ∀ p j, p < readout.length → j < circ.bits.length →
      readout.getD p 0 = circ.bits.getD j 0 →
      listIdx readout (circ.bits.getD j 0) = p) := by
  unfold processOne at hout
  rw [htr, bindE] at hout
  replace hout : assemble (sample ops nshots) nshots readout circ.bits = .ok out := hout
  unfold assemble at hout
  refine ⟨?_, ?_, ?_⟩
  · rw [mapE_length _ _ _ hout]
    simp [pyRange]
  · intro k j hk hj
    have hrow := mapE_getD _ _ _ hout k (by simpa [pyRange] using hk) 0 []
    have hkk : (pyRange nshots).getD k 0 = k := by
      unfold pyRange
      rw [List.getD_eq_getElem _ _ (by simpa using hk), List.getElem_range]
    rw [hkk] at hrow
    have hcell := mapE_getD _ _ _ hrow j hj 0 false
    by_cases hmem : circ.bits.getD j 0 ∈ readout
    · rw [pyIndex, if_pos hmem] at hcell
      simp only [Except.map] at hcell
      exact (Except.ok.inj hcell).symm
    · rw [pyIndex, if_neg hmem] at hcell
      simp only [Except.map] at hcell
      cases hcell
  · intro hnd p j hp _ heq
    exact listIdx_of_nodup readout _ p hnd hp heq

/-- Witness for C2 on the spec's example: declared bits `[0, 1]`,
measurements emitted targeting bit 1 then bit 0, one shot whose ledger row
is `(true, false)` — the declared-order row is its permutation. -/
theorem spec_C2_witness :
    ([[false, true]].getD 0 []).getD 0 false =
      decide (listIdx [1, 0] 0 = 0) ∧
    ([[false, true]].getD 0 []).getD 1 false =
      decide (listIdx [1, 0] 1 = 0) := by
  have h := spec_C2_declared_order (fun _ _ _ j => decide (j = 0))
    ⟨[0, 1], [0, 1], [⟨.Measure, [.q 0, .b 1]⟩, ⟨.Measure, [.q 1, .b 0]⟩]⟩ 1
    [("M", [0]), ("M", [1])] [1, 0] [[false, true]] (by rfl) (by rfl)
  exact ⟨h.2.1 0 0 (by decide) (by decide), h.2.1 0 1 (by decide) (by decide)⟩

/-! ## Unmapped declared bits -/

/-- C8: if some declared bit never appears in the measurement ledger, then
(for a positive shot count) assembly fails with the lookup error and no
result record is produced; if every declared bit appears exactly once in
the ledger, every declared bit has exactly one ledger position and
processing succeeds. -/
theorem spec_C8_unmapped_bit :
    (∀ (sample : List StimOp → ℤ → (ℕ → ℕ → Bool)) (circ : PCircuit)
        (nshots : ℤ) (ops : List StimOp) (readout : List ℕ),
        0 < nshots →
        translateC circ = .ok (ops, readout) →
        (∃ cb ∈ circ.bits, cb ∉ readout) →
        processOne sample circ nshots = .error "is not in list") ∧
    (∀ (sample : List StimOp → ℤ → (ℕ → ℕ → Bool)) (circ : PCircuit)
        (nshots : ℤ) (ops : List StimOp) (readout : List ℕ),
        translateC circ = .ok (ops, readout) →
        (∀ cb ∈ circ.bits, readout.count cb = 1) →
        (∃ out, processOne sample circ nshots = .ok out) ∧
        (∀ cb ∈ circ.bits, ∃ p, p < readout.length ∧ readout.getD p 0 = cb ∧
          ∀ p2, p2 < readout.length → readout.getD p2 0 = cb → p2 = p)) := by
  constructor
  · intro sample circ nshots ops readout hpos htr hex
    unfold processOne
    rw [htr, bindE]
    show assemble (sample ops nshots) nshots readout circ.bits = _
    unfold assemble
    obtain ⟨cb, hcb, hnot⟩ := hex
    have hcell : ∀ k : ℕ,
        mapE (fun cb2 => (pyIndex readout cb2).map
          (fun j => sample ops nshots k j)) circ.bits = .error "is not in list" := by
      intro k
      apply mapE_error_of_mem
      · refine ⟨cb, hcb, ?_⟩
        rw [pyIndex, if_neg hnot]
        rfl
      · intro cb2 _ e2 he2
        by_cases hm : cb2 ∈ readout
        · rw [pyIndex, if_pos hm] at he2
          cases he2
        · rw [pyIndex, if_neg hm] at he2
          exact (Except.error.inj he2).symm
    apply mapE_error_of_mem
    · refine ⟨0, ?_, hcell 0⟩
      unfold pyRange
      exact List.mem_range.mpr (by omega)
    · intro k _ e2 he2
      rw [hcell k] at he2
      exact (Except.error.inj he2).symm
  · intro sample circ nshots ops readout htr hcount
    constructor
    · unfold processOne
      rw [htr, bindE]
      show ∃ out, assemble (sample ops nshots) nshots readout circ.bits = .ok out
      unfold assemble
      apply mapE_ok
      intro k _
      apply mapE_ok
      intro cb hcb
      have hm : cb ∈ readout := by
        have := hcount cb hcb
        have hpos : 0 < readout.count cb := by omega
        exact List.count_pos_iff.mp hpos
      rw [pyIndex, if_pos hm]
      exact ⟨_, rfl⟩
    · intro cb hcb
      exact count_one_unique readout cb (hcount cb hcb)

/-- Witness for C8: declared bit 1 is never measured, so one-shot
processing fails with the lookup error; in a circuit measuring its single
declared bit once, processing succeeds. -/
theorem spec_C8_witness :
    processOne (fun _ _ _ _ => false) ⟨[0], [0, 1], [⟨.Measure, [.q 0, .b 0]⟩]⟩ 1 =
      .error "is not in list" ∧
    (∃ out, processOne (fun _ _ _ _ => false) ⟨[0], [0], [⟨.Measure, [.q 0, .b 0]⟩]⟩ 1 =
      .ok out) := by
  constructor
  · exact spec_C8_unmapped_bit.1 _ _ _ [("M", [0])] [0] (by decide) (by rfl)
      ⟨1, by decide, by decide⟩
  · exact (spec_C8_unmapped_bit.2 _ _ _ [("M", [0])] [0] (by rfl)
      (by decide)).1

/-! ## Shot-count handling (no pre-invocation validation) -/

/-- C9 counterexample: with a zero (or negative) shot count, processing a
valid measured circuit does not fail — no caller-validation error is
surfaced; translation and the (total) executor invocation proceed and an
empty result record is returned. -/
theorem spec_C9_counterexample :
    processOne (fun _ _ _ _ => false) ⟨[0], [0], [⟨.Measure, [.q 0, .b 0]⟩]⟩ 0 =
      .ok [] ∧
    processOne (fun _ _ _ _ => false) ⟨[0], [0], [⟨.Measure, [.q 0, .b 0]⟩]⟩ (-3) =
      .ok [] := by
  constructor <;> rfl

/-- C9 (amended): `_process_one_circuit` performs no shot-count validation:
for any non-positive shot count, any circuit that translates successfully
is still translated, the executor is invoked, and an empty (zero-row)
result record is returned — for every executor alike. -/
theorem spec_C9_amended (sample : List StimOp → ℤ → (ℕ → ℕ → Bool))
    (circ : PCircuit) (nshots : ℤ) (tr : List StimOp × List ℕ)
    (hn : nshots ≤ 0) (htr : translateC circ = .ok tr) :
    processOne sample circ nshots = .ok [] := by
  unfold processOne
  rw [htr, bindE]
  show assemble (sample tr.1 nshots) nshots tr.2 circ.bits = _
  unfold assemble pyRange
  rw [show nshots.toNat = 0 from by omega]
  rfl

/-- Witness for the amended C9 at shot count `-5`. -/
theorem spec_C9_witness :
    processOne (fun _ _ _ _ => false) ⟨[0], [0], [⟨.Measure, [.q 0, .b 0]⟩]⟩ (-5) =
      .ok [] :=
  spec_C9_amended _ _ _ ([("M", [0])], [0]) (by decide) (by rfl)

/-! ## The submission/status session -/

/-- C6: a per-circuit shot list whose length differs from the circuit list
makes `process_circuits` fail with the length-mismatch error — for every
executor and every starting cache alike, before any translation or
simulation runs: no handle list and no updated cache are produced. -/
theorem spec_C6_shot_list_mismatch (sample : List StimOp → ℤ → (ℕ → ℕ → Bool))
    (circuits : List PCircuit) (l : List ℤ) (cache : Cache)
    (h : l.length ≠ circuits.length) :
    processCircuits sample circuits (.perCircuit l) cache =
      .error "The length of n_shots and circuits must match" := by
  simp only [processCircuits]
  rw [if_pos h]

/-- Witness for C6: three circuits with a two-element shot list fail with
the length-mismatch error. -/
theorem spec_C6_witness :
    processCircuits (fun _ _ _ _ => false) [⟨[], [], []⟩, ⟨[], [], []⟩, ⟨[], [], []⟩]
      (.perCircuit [1, 2]) ⟨0, []⟩ =
      .error "The length of n_shots and circuits must match" :=
  spec_C6_shot_list_mismatch _ _ _ _ (by decide)

theorem procStep_ok (sample : List StimOp → ℤ → (ℕ → ℕ → Bool))
    (acc : List ℕ × Cache) (p : PCircuit × ℤ) (acc2 : List ℕ × Cache)
    (h : procStep sample acc p = .ok acc2) :
    ∃ r, acc2 = (acc.1 ++ [acc.2.next],
      (⟨acc.2.next + 1, acc.2.entries ++ [(acc.2.next, r)]⟩ : Cache)) := by
  unfold procStep at h
  cases hr : processOne sample p.1 p.2 with
  | error e =>
      rw [hr, bindErr] at h
      cases h
  | ok r =>
      rw [hr, bindE, pureE] at h
      exact ⟨r, (Except.ok.inj h).symm⟩

theorem procLoop_handles (sample : List StimOp → ℤ → (ℕ → ℕ → Bool))
    (ps : List (PCircuit × ℤ)) :
    ∀ acc res, foldE (procStep sample) acc ps = .ok res →
    (∀ hd ∈ acc.1, hd ∈ acc.2.entries.map (fun e2 => e2.1)) →
    ∀ hd ∈ res.1, hd ∈ res.2.entries.map (fun e2 => e2.1) := by
  induction ps with
  | nil =>
      intro acc res h hinv
      simp only [foldE] at h
      injection h with h2
      subst h2
      exact hinv
  | cons p ps ih =>
      intro acc res h hinv
      simp only [foldE] at h
      cases hs : procStep sample acc p with
      | error e =>
          rw [hs] at h
          cases h
      | ok acc2 =>
          rw [hs] at h
          apply ih acc2 res h
          obtain ⟨r, hacc2⟩ := procStep_ok _ _ _ _ hs
          subst hacc2
          intro hd hhd
          simp only [List.map_append, List.mem_append]
          rcases List.mem_append.mp hhd with h1 | h1
          · exact Or.inl (hinv hd h1)
          · right
            simp only [List.mem_singleton] at h1
            subst h1
            simp

theorem find_key_isSome (l : List (ℕ × List (List Bool))) (hd : ℕ)
    (h : hd ∈ l.map (fun e2 => e2.1)) :
    ((l.find? (fun e2 => e2.1 = hd)).map (fun e2 => e2.2)).isSome = true := by
  induction l with
  | nil => simp at h
  | cons e l ih =>
      by_cases he : e.1 = hd
      · simp [List.find?_cons, he]
      · simp only [List.map_cons, List.mem_cons] at h
        rcases h with h | h
        · exact absurd h.symm he
        · have h2 := ih h
          simpa [List.find?_cons, he] using h2

/-- C7: `circuit_status` reports `COMPLETED` exactly for cached handles and
raises the unknown-handle error otherwise; it can never report any other
(intermediate) state; every handle returned by `process_circuits` is in
the updated cache with a stored result record, so querying it (any number
of times — the query is a pure read) yields `COMPLETED`. -/
theorem spec_C7_status :
    (∀ (cache : Cache) (h : ℕ), h ∈ cache.entries.map (fun e2 => e2.1) →
        circuitStatus cache h = .ok .completed) ∧
    (∀ (cache : Cache) (h : ℕ), h ∉ cache.entries.map (fun e2 => e2.1) →
        circuitStatus cache h = .error "CircuitNotRunError") ∧
    (∀ (cache : Cache) (h : ℕ) (st : StatusEnum),
        circuitStatus cache h = .ok st → st = .completed) ∧
    (∀ (sample : List StimOp → ℤ → (ℕ → ℕ → Bool))
        (circuits : List PCircuit) (ns : NShotsArg) (cache : Cache)
        (handles : List ℕ) (cache2 : Cache),
        processCircuits sample circuits ns cache = .ok (handles, cache2) →
        ∀ hd ∈ handles, circuitStatus cache2 hd = .ok .completed ∧
          (getResult cache2 hd).isSome = true) := by
  refine ⟨?_, ?_, ?_, ?_⟩
  · intro cache h hmem
    simp [circuitStatus, hmem]
  · intro cache h hmem
    simp [circuitStatus, hmem]
  · intro cache h st hst
    unfold circuitStatus at hst
    split_ifs at hst
    exact ((Except.ok.inj hst)).symm
  · intro sample circuits ns cache handles cache2 h hd hmem
    have hkey : hd ∈ cache2.entries.map (fun e2 => e2.1) := by
      cases ns with
      | perCircuit l =>
          simp only [processCircuits] at h
          by_cases hl : l.length ≠ circuits.length
          · rw [if_pos hl] at h
            cases h
          · rw [if_neg hl] at h
            exact procLoop_handles sample _ _ _ h (by simp) hd hmem
      | scalar n =>
          simp only [processCircuits] at h
          exact procLoop_handles sample _ _ _ h (by simp) hd hmem
    constructor
    · simp [circuitStatus, hkey]
    · unfold getResult
      exact find_key_isSome _ _ hkey

/-- Witness for C7: a cached handle reports `COMPLETED` with a stored
record, an unknown handle raises; the cache produced by a one-circuit
submission answers `COMPLETED` for its returned handle. -/
theorem spec_C7_witness :
    circuitStatus ⟨1, [(0, [[false]])]⟩ 0 = .ok .completed ∧
    circuitStatus ⟨1, [(0, [[false]])]⟩ 5 = .error "CircuitNotRunError" ∧
    (getResult ⟨1, [(0, [[false]])]⟩ 0).isSome = true := by
  have h4 := spec_C7_status.2.2.2 (fun _ _ _ _ => false)
    [⟨[0], [0], [⟨.Measure, [.q 0, .b 0]⟩]⟩] (.scalar 1) ⟨0, []⟩
    [0] ⟨1, [(0, [[false]])]⟩ (by rfl) 0 (by decide)
  exact ⟨h4.1, spec_C7_status.2.1 _ _ (by decide), h4.2⟩
